import Mathlib

/-!
Verification development for the UTXO set commitment engine
(`src/utxocommit/`): a 16-trunk nibble trie whose leaves hold commutative,
invertible multiset-hash accumulators.

The embedding follows the C++ sources:
  * `multiset.h`   — `CMultiSet`, a wrapper around the secp256k1 multiset
    primitive.  The accumulator state is modelled extensionally as a signed
    multiset of byte strings (`Element → ℤ`), which is exactly the
    mathematical contract the primitive is specified to satisfy.
  * `node.h` / `node.cpp` — `CNode`, `CNormalizeItem`, `CTrunkNode` and its
    operations `Update`, `Normalize`, `SplitNode`, `SetCapacity`, `Hash`,
    `SumAllLeaves`.
  * `utxocommit/utxocommit.h` / `utxocommit/utxocommit.cpp` — the engine
    `CUtxoCommit` with `Update`, `Normalize`, `GetHash`, `InitialLoad`.

Machine integers: node counts are `uint64_t` in the source and are modelled
as `Nat` reduced modulo `2 ^ 64` wherever the source can overflow or
underflow (a `remove` decrements the count, so `count += -1` wraps).

Fallible behaviour: the C++ code indexes vectors without checks (undefined
behaviour when out of range), `assert`s, and contains loops whose
termination depends on data.  The embedding returns `Except EngineErr _`,
with a distinguished error for each situation; loops take explicit fuel and
report exhaustion, which models divergence of the source loop.
-/

namespace UtxoCommit

/-- A byte of an element; the source uses `uint8_t` values `0..255`. -/
abbrev Byte := Nat

/-- An element is an opaque byte string (`std::vector<uint8_t>`). -/
abbrev Element := List Byte

/-- `BRANCH_COUNT` from `node.h`. -/
def BRANCH_COUNT : Nat := 16

/-- `BRANCH_BITS` from `node.h`. -/
def BRANCH_BITS : Nat := 4

/-- `MAX_LEAF_SIZE` from `node.h`. -/
def MAX_LEAF_SIZE : Nat := 2000

/-- `MIN_ELEMENT_SIZE` from `node.h`. -/
def MIN_ELEMENT_SIZE : Nat := 4

/-- Modulus of the `uint64_t` arithmetic used for node counts. -/
def U64 : Nat := 2 ^ 64

/-- One step of `uint64_t` `count += delta` with `delta = remove ? -1 : 1`:
addition modulo `2 ^ 64`, where `-1` is `2 ^ 64 - 1`. -/
def bumpCount (c : Nat) (remove : Bool) : Nat :=
  (c + (if remove then U64 - 1 else 1)) % U64

/-- The state of one `CMultiSet` (`multiset.h`), modelled extensionally: the
signed multiplicity each byte string has been accumulated with.  The
secp256k1 primitive's contract (`spec` §4.1) makes the finalized digest a
function of exactly this data. -/
def MState := Element → Int

/-- `CMultiSet()` — the empty accumulator. -/
def msEmpty : MState := fun _ => 0

/-- `CMultiSet::Update` — add (`remove = false`) or remove (`remove = true`)
one element. -/
def msUpdate (m : MState) (e : Element) (remove : Bool) : MState :=
  fun x => if x = e then m x + (if remove then -1 else 1) else m x

/-- `CMultiSet::Combine` — `this = this + other`. -/
def msCombine (a b : MState) : MState := fun x => a x + b x

/-- Fold of `msUpdate` over a list of `(element, remove)` operations. -/
def msOfOps (l : List (Element × Bool)) : MState :=
  l.foldl (fun m u => msUpdate m u.1 u.2) msEmpty

/-- `CNode` (`node.h`): `count` is a `uint64_t`, `data` indexes into
`multisets` (leaf) or `branches` (branch). -/
structure CNode where
  count : Nat
  data : Nat
  is_branch : Bool
  deriving Repr, DecidableEq

/-- The `CNode(count, data)` constructor: always a leaf. -/
def CNode.mkLeaf (count data : Nat) : CNode := ⟨count, data, false⟩

/-- `CNormalizeItem` (`node.h`).  The C++ field `prefix` is called `pfx`
here (`prefix` is not a usable identifier in Lean). -/
structure CNormalizeItem where
  node_index : Nat
  bits : Nat
  pfx : Element
  deriving Repr, DecidableEq

/-- `CTrunkNode` state (`node.h`): the three arenas plus the normalization
queue (`denormalized`, a FIFO with `head` as the front). -/
structure CTrunkNode where
  nodes : List CNode
  branches : List (List Nat)
  multisets : List MState
  denormalized : List CNormalizeItem

/-- The `CTrunkNode()` constructor: a single empty leaf and one empty
multiset. -/
def trunkInit : CTrunkNode :=
  { nodes := [CNode.mkLeaf 0 0], branches := [], multisets := [msEmpty],
    denormalized := [] }

/-- Error outcomes of the embedded operations.  `elemOob` is an
out-of-bounds read or write of element/prefix bytes, `arenaOob` an
out-of-bounds arena index (both undefined behaviour in the C++),
`assertFail` a failed `assert`, `storeMismatch` the `orgcount == added`
assertion in `Normalize`, and `fuelOut` loop-fuel exhaustion (modelling a
source loop that does not terminate). -/
inductive EngineErr where
  | elemOob
  | arenaOob
  | assertFail
  | storeMismatch
  | fuelOut
  deriving Repr, DecidableEq

/-- `get_branch` (`node.cpp`):
`(element[depth / 2] >> 4*(1-(depth%2))) & 0xF`.  Out-of-range reads are
modelled separately (`branchRead?`); here the byte read is total with
default `0`. -/
def get_branch (depth : Nat) (e : Element) : Nat :=
  ((e.getD (depth / 2) 0) >>> (4 * (1 - depth % 2))) &&& 0xF

/-- Whether the byte read performed by `get_branch` at `depth` is inside
`e`'s bounds. -/
def branchInBounds (depth : Nat) (e : Element) : Prop :=
  depth / 2 < e.length

instance (depth : Nat) (e : Element) : Decidable (branchInBounds depth e) :=
  inferInstanceAs (Decidable (_ < _))

/-- `CTrunkNode::SplitNode` (`node.cpp`): append one leaf taking over this
node's multiset index, 15 leaves with freshly appended empty multisets, turn
the node into a branch whose record lists the 16 new leaves in nibble
order.  Indexing `nodes[node_index]` is total here via `getD`; all callers
check the index first. -/
def SplitNode (t : CTrunkNode) (node_index : Nat) : CTrunkNode :=
  let nd := t.nodes.getD node_index (CNode.mkLeaf 0 0)
  let m := t.multisets.length
  let n := t.nodes.length
  let newNodes :=
    CNode.mkLeaf 0 nd.data ::
      (List.range (BRANCH_COUNT - 1)).map (fun k => CNode.mkLeaf 0 (m + k))
  let newMs := (List.range (BRANCH_COUNT - 1)).map (fun _ => msEmpty)
  { nodes :=
      (t.nodes.set node_index { nd with data := t.branches.length, is_branch := true })
        ++ newNodes,
    branches := t.branches ++ [(List.range BRANCH_COUNT).map (fun k => n + k)],
    multisets := t.multisets ++ newMs,
    denormalized := t.denormalized }

/-- The loop body of `CTrunkNode::Update` (`node.cpp`): walk from
`node_index` at `depth`, bump counts, enqueue denormalized nodes, and apply
the element to the reached leaf's multiset.  `fuel` bounds the walk; the
source loop terminates on every well-formed trunk because child indices
strictly exceed their parent's. -/
def updateLoop (e : Element) (remove : Bool) :
    Nat → CTrunkNode → Nat → Nat → Except EngineErr CTrunkNode
  | 0, _, _, _ => .error .fuelOut
  | fuel + 1, t, node_index, depth =>
    match t.nodes.get? node_index with
    | none => .error .arenaOob
    | some nd =>
      let c := bumpCount nd.count remove
      let t1 : CTrunkNode := { t with nodes := t.nodes.set node_index { nd with count := c } }
      if nd.is_branch = false then
        let t2 : CTrunkNode :=
          if MAX_LEAF_SIZE < c then
            { t1 with denormalized :=
                t1.denormalized ++ [⟨node_index, depth * BRANCH_BITS, e⟩] }
          else t1
        match t2.multisets.get? nd.data with
        | none => .error .arenaOob
        | some ms =>
          .ok { t2 with multisets := t2.multisets.set nd.data (msUpdate ms e remove) }
      else
        let t2 : CTrunkNode :=
          if c ≤ MAX_LEAF_SIZE then
            { t1 with denormalized :=
                t1.denormalized ++ [⟨node_index, depth * BRANCH_BITS, e⟩] }
          else t1
        if branchInBounds depth e then
          match t2.branches.get? nd.data with
          | none => .error .arenaOob
          | some br =>
            match br.get? (get_branch depth e) with
            | none => .error .arenaOob
            | some child => updateLoop e remove fuel t2 child (depth + 1)
        else .error .elemOob

/-- `CTrunkNode::Update` (`node.cpp`): assert the minimum element size, then
walk from the root (`node_index = 0`, `depth = 1`). -/
def CTrunkNode.Update (t : CTrunkNode) (e : Element) (remove : Bool) :
    Except EngineErr CTrunkNode :=
  if MIN_ELEMENT_SIZE ≤ e.length then
    updateLoop e remove (t.nodes.length + 1) t 0 1
  else .error .assertFail

/-- The external store contract (`CUtxoDataSet`, `utxocommit/utxocommit.h`):
a size estimate and, for a prefix and a bit count, the full sequence of
elements the range cursor yields. -/
structure CUtxoDataSet where
  GetSize : Nat
  GetRange : Element → Nat → List Element

/-- `CTrunkNode::SumAllLeaves` (`node.cpp`): combine every descendant
leaf's multiset into the accumulator, in child order.  `fuel` bounds the
recursion depth. -/
def sumAllLeaves (t : CTrunkNode) : Nat → MState → Nat → Except EngineErr MState
  | 0, _, _ => .error .fuelOut
  | fuel + 1, acc, node_index =>
    match t.nodes.get? node_index with
    | none => .error .arenaOob
    | some nd =>
      if nd.is_branch then
        match t.branches.get? nd.data with
        | none => .error .arenaOob
        | some br => br.foldlM (fun a c => sumAllLeaves t fuel a c) acc
      else
        match t.multisets.get? nd.data with
        | none => .error .arenaOob
        | some m => .ok (msCombine acc m)

/-- The cursor loop of `Normalize`'s split case (`node.cpp`): for each
element the range cursor yields, find its nibble at `depth`, bump the
matching new leaf's count (the 16 new leaves start at node index `base`),
count it in `added`, and add it to that leaf's multiset. -/
def redistribute (depth base : Nat) :
    List Element → CTrunkNode → Nat → Except EngineErr (CTrunkNode × Nat)
  | [], t, added => .ok (t, added)
  | elm :: rest, t, added =>
    if branchInBounds depth elm then
      let branch := get_branch depth elm
      match t.nodes.get? (base + branch) with
      | none => .error .arenaOob
      | some nd =>
        let t1 : CTrunkNode :=
          { t with nodes :=
              t.nodes.set (base + branch) { nd with count := (nd.count + 1) % U64 } }
        match t1.multisets.get? nd.data with
        | none => .error .arenaOob
        | some ms =>
          redistribute depth base rest
            { t1 with multisets := t1.multisets.set nd.data (msUpdate ms elm false) }
            ((added + 1) % U64)
    else .error .elemOob

/-- One step of the child-enqueue loop of `Normalize`'s split case
(`node.cpp`): overwrite the nibble of the prefix at `depth` with `n`
(`prefix[depth/2] = (prefix[depth/2] & mask) | part`). -/
def setNibble (depth : Nat) (p : Element) (n : Nat) : Element :=
  p.set (depth / 2)
    (((p.getD (depth / 2) 0) &&& (if depth % 2 = 1 then 0xF0 else 0x0F)) |||
      (if depth % 2 = 1 then n else n <<< 4))

/-- The child-enqueue loop of `Normalize`'s split case: for `n` in the
given list, mutate the (carried) prefix's nibble at `depth` to `n` and
append a normalize item for child `base + n` at `bits` bits. -/
def enqueueChildren (depth base bits : Nat) :
    List Nat → Element → List CNormalizeItem → Element × List CNormalizeItem
  | [], p, acc => (p, acc)
  | n :: ns, p, acc =>
    let p' := setNibble depth p n
    enqueueChildren depth base bits ns p' (acc ++ [⟨base + n, bits, p'⟩])

/-- Processing of one queue item inside `CTrunkNode::Normalize`
(`node.cpp`): collapse a small branch, split a big leaf (resetting its
multiset, splitting the node, re-adding the store range, checking
`orgcount == added`, and enqueueing the 16 children), or drop the item.
The queue passed in is `item :: rest`; the C++ pops the front after
processing, so the resulting queue is `rest` plus whatever was pushed. -/
def normProcess (src : CUtxoDataSet) (t : CTrunkNode) (item : CNormalizeItem)
    (rest : List CNormalizeItem) : Except EngineErr CTrunkNode :=
  match t.nodes.get? item.node_index with
  | none => .error .arenaOob
  | some nd =>
    if nd.is_branch ∧ nd.count ≤ MAX_LEAF_SIZE then do
      let m ← sumAllLeaves t (t.nodes.length + 1) msEmpty item.node_index
      .ok { t with
        nodes := t.nodes.set item.node_index
          { nd with data := t.multisets.length, is_branch := false },
        multisets := t.multisets ++ [m],
        denormalized := rest }
    else if nd.is_branch = false ∧ MAX_LEAF_SIZE < nd.count then
      match t.multisets.get? nd.data with
      | none => .error .arenaOob
      | some _ =>
        let orgcount := nd.count
        let t1 : CTrunkNode := { t with multisets := t.multisets.set nd.data msEmpty }
        let t2 := SplitNode t1 item.node_index
        let base := t2.nodes.length - BRANCH_COUNT
        let depth := item.bits / 4
        do
          let (t3, added) ← redistribute depth base (src.GetRange item.pfx item.bits) t2 0
          if orgcount = added then
            if depth / 2 < item.pfx.length then
              let items :=
                (enqueueChildren depth base (depth * 4 + 4) (List.range BRANCH_COUNT)
                  item.pfx []).2
              .ok { t3 with denormalized := rest ++ items }
            else .error .elemOob
          else .error .storeMismatch
    else .ok { t with denormalized := rest }

/-- The queue-draining loop of `CTrunkNode::Normalize` (`node.cpp`).
`fuel` bounds the number of processed items; the source loop can diverge
(a split can enqueue a child as big as its parent), which is modelled by
`fuelOut`. -/
def normLoop (src : CUtxoDataSet) : Nat → CTrunkNode → Except EngineErr CTrunkNode
  | fuel, t =>
    match t.denormalized with
    | [] => .ok t
    | item :: rest =>
      match fuel with
      | 0 => .error .fuelOut
      | fuel + 1 => normProcess src t item rest >>= normLoop src fuel

/-- `CTrunkNode::Normalize` (`node.cpp`). -/
def CTrunkNode.Normalize (t : CTrunkNode) (src : CUtxoDataSet) (fuel : Nat) :
    Except EngineErr CTrunkNode :=
  normLoop src fuel t

/-- `CTrunkNode::SetCapacity` (`node.cpp`), with explicit fuel bounding the
recursion depth: on an empty leaf, return if
`est_count + est_count/2 < MAX_LEAF_SIZE` (in `uint64_t` arithmetic),
otherwise split unconditionally and fold over the 16 new children in nibble
order, recursing into each with `est_count / BRANCH_COUNT`; the child index
`branches[nodes[node_index].data][n]` is read from the current state each
iteration, as the source does. -/
def setCapacityGo : Nat → CTrunkNode → Nat → Nat → Except EngineErr CTrunkNode
  | 0, _, _, _ => .error .fuelOut
  | fuel + 1, t, est, node_index =>
    match t.nodes.get? node_index with
    | none => .error .arenaOob
    | some nd =>
      if nd.is_branch = true \/ nd.count ≠ 0 then .error .assertFail
      else if (est + est / 2) % U64 < MAX_LEAF_SIZE then .ok t
      else
        (List.range BRANCH_COUNT).foldlM
          (fun acc n =>
            match (acc.branches.getD (acc.nodes.getD node_index (CNode.mkLeaf 0 0)).data
                []).get? n with
            | none => .error .arenaOob
            | some child => setCapacityGo fuel acc (est / BRANCH_COUNT) child)
          (SplitNode t node_index)

/-- `CTrunkNode::SetCapacity` with the fuel discharged: the recursion depth
is bounded by `est` because each level divides the estimate by 16 and the
guard stops recursion below `MAX_LEAF_SIZE`, so fuel `est + 1` always
suffices (`setCapacityGo_no_fuelOut`). -/
def setCapacity (t : CTrunkNode) (est node_index : Nat) : Except EngineErr CTrunkNode :=
  setCapacityGo (est + 1) t est node_index

/-- The digest primitives the engine composes, abstracted over the digest
type `D`.  Modelled from the spec: `secp256k1_multiset_finalize` and the
`CHashWriter` double-SHA256 live outside the sources under verification;
per the framing of spec §6 every write into a hash writer appends exactly
one 32-byte digest, so a writer stream is a `List D`, `fin` is the
finalization of a multiset state and `sha` the digest of a stream. -/
structure HashModel (D : Type) where
  fin : MState → D
  sha : List D → D

/-- `CTrunkNode::Hash` (`node.cpp`): a leaf appends the finalization of
its multiset to the writer; a branch hashes its 16 children into a fresh
inner writer and appends that stream's digest.  `fuel` bounds the
recursion depth. -/
def hashNode {D : Type} (M : HashModel D) (t : CTrunkNode) :
    Nat → Nat → List D → Option (List D)
  | 0, _, _ => none
  | fuel + 1, node_index, acc =>
    match t.nodes.get? node_index with
    | none => none
    | some nd =>
      if nd.is_branch then
        match t.branches.get? nd.data with
        | none => none
        | some br => do
          let inner ← br.foldlM (fun a c => hashNode M t fuel c a) []
          some (acc ++ [M.sha inner])
      else
        match t.multisets.get? nd.data with
        | none => none
        | some m => some (acc ++ [M.fin m])

/-- `CUtxoCommit` state (`utxocommit/utxocommit.h`): the 16 trunks. -/
structure CUtxoCommit where
  trunkNodes : List CTrunkNode

/-- The `CUtxoCommit()` constructor: 16 fresh trunks. -/
def engineInit : CUtxoCommit :=
  { trunkNodes := List.replicate BRANCH_COUNT trunkInit }

/-- The trunk selector of `CUtxoCommit::Update`: `(element[0] >> 4) & 0xF`. -/
def trunkOf (e : Element) : Nat := ((e.getD 0 0) >>> 4) &&& 0xF

/-- `CUtxoCommit::Update` (`utxocommit/utxocommit.cpp`): assert the
minimum element size and forward to the trunk selected by the top nibble. -/
def CUtxoCommit.Update (E : CUtxoCommit) (e : Element) (remove : Bool) :
    Except EngineErr CUtxoCommit :=
  if MIN_ELEMENT_SIZE ≤ e.length then
    match E.trunkNodes.get? (trunkOf e) with
    | none => .error .arenaOob
    | some t => do
      let t' ← t.Update e remove
      .ok { trunkNodes := E.trunkNodes.set (trunkOf e) t' }
  else .error .assertFail

/-- `CUtxoCommit::Normalize` (`utxocommit/utxocommit.cpp`): normalize each
trunk in order `0..15`. -/
def CUtxoCommit.Normalize (E : CUtxoCommit) (src : CUtxoDataSet) (fuel : Nat) :
    Except EngineErr CUtxoCommit := do
  let ts ← E.trunkNodes.mapM (fun t => t.Normalize src fuel)
  .ok { trunkNodes := ts }

/-- `CUtxoCommit::GetHash` (`utxocommit/utxocommit.cpp`): one writer
stream, each trunk's `Hash` of node 0 appended in trunk order `0..15`,
then the digest of the stream. -/
def CUtxoCommit.GetHash {D : Type} (M : HashModel D) (E : CUtxoCommit) : Option D := do
  let stream ← E.trunkNodes.foldlM (fun acc t => hashNode M t (t.nodes.length + 1) 0 acc) []
  some (M.sha stream)

/-- `initial_load_thread` (`utxocommit/utxocommit.cpp`): pre-shape the
trunk with `SetCapacity(size/16)`, `Update`-add every element of the
trunk's 4-bit prefix range, then normalize. -/
def initialLoadTrunk (src : CUtxoDataSet) (trunknr : Nat) (t : CTrunkNode)
    (fuel : Nat) : Except EngineErr CTrunkNode := do
  let t1 ← setCapacity t (src.GetSize / BRANCH_COUNT) 0
  let t2 ← (src.GetRange [(trunknr <<< 4) &&& 0xF0] BRANCH_BITS).foldlM
    (fun tr elm => tr.Update elm false) t1
  normLoop src fuel t2

/-- `CUtxoCommit::InitialLoad` (`utxocommit/utxocommit.cpp`).  The 16
worker threads each own one trunk and share only the read-only store, so
the parallel fan-out is modelled as the sequential composition in trunk
order. -/
def CUtxoCommit.InitialLoad (E : CUtxoCommit) (src : CUtxoDataSet) (fuel : Nat) :
    Except EngineErr CUtxoCommit := do
  let ts ← (List.range BRANCH_COUNT).mapM (fun n =>
    match E.trunkNodes.get? n with
    | none => .error .arenaOob
    | some t => initialLoadTrunk src n t fuel)
  .ok { trunkNodes := ts }

/-! ### Basic facts about `SplitNode` and `SetCapacity` -/

/-- `SplitNode` appends exactly `BRANCH_COUNT` nodes. -/
theorem SplitNode_nodes_length (t : CTrunkNode) (i : Nat) :
    (SplitNode t i).nodes.length = t.nodes.length + BRANCH_COUNT := by
  simp [SplitNode, BRANCH_COUNT]

/-- Folding a step that never shrinks the node arena never shrinks the
node arena. -/
theorem foldlM_nodes_le {A : Type} (step : CTrunkNode → A → Except EngineErr CTrunkNode)
    (hstep : ∀ t a t2, step t a = .ok t2 → t.nodes.length ≤ t2.nodes.length) :
    ∀ (l : List A) (t0 t2 : CTrunkNode),
      l.foldlM step t0 = .ok t2 → t0.nodes.length ≤ t2.nodes.length := by
  intro l
  induction l with
  | nil => intro t0 t2 h; rw [List.foldlM_nil] at h; cases h; exact Nat.le_refl _
  | cons a as ih =>
    intro t0 t2 h
    rw [List.foldlM_cons] at h
    cases hs : step t0 a with
    | error err => rw [hs] at h; exact absurd h (by simp [Bind.bind, Except.bind])
    | ok t1 =>
      rw [hs] at h
      exact Nat.le_trans (hstep _ _ _ hs) (ih _ _ h)

/-- `setCapacityGo` never shrinks the node arena. -/
theorem setCapacityGo_nodes_le :
    ∀ (fuel : Nat) (t : CTrunkNode) (est node_index : Nat) (t2 : CTrunkNode),
      setCapacityGo fuel t est node_index = .ok t2 →
        t.nodes.length ≤ t2.nodes.length := by
  intro fuel
  induction fuel with
  | zero => intro t est node_index t2 h; exact absurd h (by simp [setCapacityGo])
  | succ fuel ih =>
    intro t est node_index t2 h
    rw [setCapacityGo] at h
    split at h
    · exact absurd h (by simp)
    · split at h
      · exact absurd h (by simp)
      · split at h
        · cases h; exact Nat.le_refl _
        · have hmono := foldlM_nodes_le _
            (fun t a t2 hs => by
              revert hs
              split
              · intro hs; exact absurd hs (by simp)
              · intro hs; exact ih _ _ _ _ hs)
            (List.range BRANCH_COUNT) _ _ h
          calc t.nodes.length ≤ (SplitNode t node_index).nodes.length := by
                rw [SplitNode_nodes_length]; exact Nat.le_add_right _ _
            _ ≤ t2.nodes.length := hmono

/-- Unfolding of `setCapacity` on an empty leaf: the assert passes and the
result is decided by the capacity guard. -/
theorem setCapacity_on_empty_leaf (t : CTrunkNode) (est node_index : Nat) (nd : CNode)
    (hnd : t.nodes.get? node_index = some nd) (hleaf : nd.is_branch = false)
    (hcnt : nd.count = 0) :
    setCapacity t est node_index =
      if (est + est / 2) % U64 < MAX_LEAF_SIZE then .ok t
      else
        (List.range BRANCH_COUNT).foldlM
          (fun acc n =>
            match (acc.branches.getD (acc.nodes.getD node_index (CNode.mkLeaf 0 0)).data
                []).get? n with
            | none => .error .arenaOob
            | some child => setCapacityGo est acc (est / BRANCH_COUNT) child)
          (SplitNode t node_index) := by
  rw [setCapacity, setCapacityGo, hnd]
  simp [hleaf, hcnt]

/-- Claim C8 (amended): on an empty leaf, `SetCapacity(est_count, node_idx)`
returns without changing any trunk state exactly when the `uint64_t`
computation `(est_count + est_count/2) mod 2^64` is below `MAX_LEAF_SIZE`;
whenever `est_count + est_count/2` does not overflow, that computation
decides the same inequality as the exact `est_count * 1.5 < MAX_LEAF_SIZE`
(phrased integrally as `3 * est_count < 2 * MAX_LEAF_SIZE`); otherwise it
unconditionally splits the leaf into 16 empty child leaves and recurses
into each child with `est_count / 16`. -/
theorem setCapacity_early_return_iff (t : CTrunkNode) (est node_index : Nat) (nd : CNode)
    (hnd : t.nodes.get? node_index = some nd) (hleaf : nd.is_branch = false)
    (hcnt : nd.count = 0) :
    (setCapacity t est node_index = .ok t ↔ (est + est / 2) % U64 < MAX_LEAF_SIZE)
    ∧ (est + est / 2 < U64 →
        ((est + est / 2) % U64 < MAX_LEAF_SIZE ↔ 3 * est < 2 * MAX_LEAF_SIZE))
    ∧ (¬ (est + est / 2) % U64 < MAX_LEAF_SIZE →
        setCapacity t est node_index =
          (List.range BRANCH_COUNT).foldlM
            (fun acc n =>
              match (acc.branches.getD (acc.nodes.getD node_index (CNode.mkLeaf 0 0)).data
                  []).get? n with
              | none => .error .arenaOob
              | some child => setCapacityGo est acc (est / BRANCH_COUNT) child)
            (SplitNode t node_index)) := by
  have hunf := setCapacity_on_empty_leaf t est node_index nd hnd hleaf hcnt
  refine ⟨⟨fun hok => ?_, fun hg => ?_⟩, fun hov => ?_, fun hg => ?_⟩
  · by_contra hg
    rw [hunf, if_neg hg] at hok
    have hle := foldlM_nodes_le _
      (fun t a t2 hs => by
        revert hs
        split
        · intro hs; exact absurd hs (by simp)
        · intro hs; exact setCapacityGo_nodes_le _ _ _ _ _ hs)
      (List.range BRANCH_COUNT) _ _ hok
    rw [SplitNode_nodes_length] at hle
    unfold BRANCH_COUNT at hle
    omega
  · rw [hunf, if_pos hg]
  · rw [Nat.mod_eq_of_lt hov]
    unfold MAX_LEAF_SIZE
    omega
  · rw [hunf, if_neg hg]

/-- Witness for `setCapacity_early_return_iff` at the fresh trunk with
estimate `100`. -/
theorem setCapacity_early_return_iff_witness :
    setCapacity trunkInit 100 0 = .ok trunkInit :=
  (setCapacity_early_return_iff trunkInit 100 0 (CNode.mkLeaf 0 0) rfl rfl rfl).1.mpr
    (by decide)

/-- Claim C8 counterexample: with `est_count = 12297829382473034412` the
`uint64_t` sum `est_count + est_count/2` wraps to `2`, so `SetCapacity`
returns without splitting even though `est_count * 1.5 < MAX_LEAF_SIZE` is
false — the integer computation does not decide the same inequality for
every `u64` estimate. -/
theorem setCapacity_overflow_counterexample :
    setCapacity trunkInit 12297829382473034412 0 = .ok trunkInit ∧
      ¬ 3 * 12297829382473034412 < 2 * MAX_LEAF_SIZE := by
  refine ⟨?_, by decide⟩
  rw [setCapacity_on_empty_leaf trunkInit _ 0 (CNode.mkLeaf 0 0) rfl rfl rfl]
  norm_num [U64, MAX_LEAF_SIZE]

/-! ### The enqueue rule of `Update`'s descent (claim C6) -/

/-- The push rule `Update` actually implements at each visited node, as a
function of the node and its post-update count `c`: a leaf is pushed when
`c > MAX_LEAF_SIZE`, a branch when `c ≤ MAX_LEAF_SIZE` — with no exemption
for the trunk root. -/
def pushDecision (nd : CNode) (c : Nat) : Bool :=
  if nd.is_branch then decide (c ≤ MAX_LEAF_SIZE) else decide (MAX_LEAF_SIZE < c)

/-- The continuation of one `updateLoop` iteration, parameterised by the
decision whether the visited node is pushed onto the normalization queue. -/
def updateStepCont (e : Element) (rm : Bool) (fuel : Nat) (t : CTrunkNode)
    (node_index depth : Nat) (nd : CNode) (push : Bool) : Except EngineErr CTrunkNode :=
  let c := bumpCount nd.count rm
  let t1 : CTrunkNode := { t with nodes := t.nodes.set node_index { nd with count := c } }
  let t2 : CTrunkNode :=
    if push then
      { t1 with denormalized := t1.denormalized ++ [⟨node_index, depth * BRANCH_BITS, e⟩] }
    else t1
  if nd.is_branch = false then
    match t2.multisets.get? nd.data with
    | none => .error .arenaOob
    | some ms => .ok { t2 with multisets := t2.multisets.set nd.data (msUpdate ms e rm) }
  else
    if branchInBounds depth e then
      match t2.branches.get? nd.data with
      | none => .error .arenaOob
      | some br =>
        match br.get? (get_branch depth e) with
        | none => .error .arenaOob
        | some child => updateLoop e rm fuel t2 child (depth + 1)
    else .error .elemOob

/-- Claim C6 (amended): during `Update`'s descent, after adding delta to
the current node's count, a Leaf is pushed onto the normalization queue if
and only if its post-update count exceeds `MAX_LEAF_SIZE`, and a Branch is
pushed if and only if its post-update count is at most `MAX_LEAF_SIZE` —
including when the branch is the trunk root: the code has no root
exclusion. -/
theorem update_step_push_iff (e : Element) (rm : Bool) (fuel : Nat) (t : CTrunkNode)
    (node_index depth : Nat) (nd : CNode) (hnd : t.nodes.get? node_index = some nd) :
    updateLoop e rm (fuel + 1) t node_index depth =
      updateStepCont e rm fuel t node_index depth nd
        (pushDecision nd (bumpCount nd.count rm)) := by
  rw [updateLoop, hnd]
  by_cases hb : nd.is_branch = false
  · by_cases hc : MAX_LEAF_SIZE < bumpCount nd.count rm
    · simp [updateStepCont, pushDecision, hb, hc]
    · simp [updateStepCont, pushDecision, hb, hc]
  · rw [Bool.not_eq_false] at hb
    by_cases hc : bumpCount nd.count rm ≤ MAX_LEAF_SIZE
    · simp [updateStepCont, pushDecision, hb, hc]
    · simp [updateStepCont, pushDecision, hb, hc]

/-- Witness for `update_step_push_iff` at the fresh trunk's root leaf. -/
theorem update_step_push_iff_witness :
    updateLoop [0x10, 0, 0, 0] false 2 trunkInit 0 1 =
      updateStepCont [0x10, 0, 0, 0] false 1 trunkInit 0 1 (CNode.mkLeaf 0 0)
        (pushDecision (CNode.mkLeaf 0 0) (bumpCount 0 false)) :=
  update_step_push_iff [0x10, 0, 0, 0] false 1 trunkInit 0 1 (CNode.mkLeaf 0 0) rfl

/-- Claim C6 counterexample: on a trunk whose root was split by
`SetCapacity(1334)`, a single `Update` pushes the trunk root (a branch with
post-update count `1 ≤ MAX_LEAF_SIZE`) onto the normalization queue, even
though the claim states a branch is pushed only when it is not the trunk
root. -/
theorem update_pushes_trunk_root :
    ((setCapacity trunkInit 1334 0).bind
        (fun t => t.Update [0x11, 0x22, 0x33, 0x44] false)).map
      (fun t => decide ((⟨0, 4, [0x11, 0x22, 0x33, 0x44]⟩ : CNormalizeItem)
        ∈ t.denormalized)) = .ok true := by
  rfl

/-! ### A free digest model, and the `InitialLoad` pre-shaping bug
(claims C3, C4) -/

/-- The free (initial) model of the two digest primitives: digests are the
formal terms built from `fin` and `sha`.  Distinct hash-computation trees
give distinct digests here, as they do for a collision-free cryptographic
hash. -/
inductive TermDigest where
  | fin (m : MState) : TermDigest
  | sha (l : List TermDigest) : TermDigest

/-- The `HashModel` instance over free digest terms. -/
def freeDigest : HashModel TermDigest := ⟨TermDigest.fin, TermDigest.sha⟩

/-- A snapshot-consistent store holding no elements whose size estimate is
`21344` (spec §4.4 specifies `size()` as approximate, used only to
pre-size). -/
def sizedEmptySrc : CUtxoDataSet := { GetSize := 21344, GetRange := fun _ _ => [] }

/-- Claim C3 (code divergence at the failing input): on the store
`sizedEmptySrc`, `InitialLoad` pre-shapes every trunk into a root branch
with 16 empty leaf children (`SetCapacity(21344/16)` splits once) and
`Normalize` never touches them (nothing was enqueued), so `GetHash` hashes
sixteen one-level trees; the fresh-engine side Updates nothing and
Normalizes, leaving sixteen single leaves.  The two digests differ. -/
theorem initialLoad_getHash_differs :
    ((engineInit.InitialLoad sizedEmptySrc 5).map (fun E => E.GetHash freeDigest)
      = .ok (some (TermDigest.sha (List.replicate 16
          (TermDigest.sha (List.replicate 16 (TermDigest.fin msEmpty)))))))
    ∧ ((engineInit.Normalize sizedEmptySrc 5).map (fun E => E.GetHash freeDigest)
      = .ok (some (TermDigest.sha (List.replicate 16 (TermDigest.fin msEmpty)))))
    ∧ TermDigest.sha (List.replicate 16
          (TermDigest.sha (List.replicate 16 (TermDigest.fin msEmpty))))
        ≠ TermDigest.sha (List.replicate 16 (TermDigest.fin msEmpty)) := by
  refine ⟨by rfl, by rfl, fun h => ?_⟩
  simp only [List.replicate] at h
  injection h with h1
  injection h1 with h2
  exact TermDigest.noConfusion h2

/-- Whether some child listed in the root's branch record is a non-root
branch node with count at most `MAX_LEAF_SIZE`: a violation of the
normalization invariant `spec` §3 states for steady state. -/
def hasSmallNonRootBranch (t : CTrunkNode) : Bool :=
  (t.branches.getD (t.nodes.getD 0 (CNode.mkLeaf 0 0)).data []).any
    (fun i => decide (i ≠ 0) && (t.nodes.getD i (CNode.mkLeaf 0 0)).is_branch
      && decide ((t.nodes.getD i (CNode.mkLeaf 0 0)).count ≤ MAX_LEAF_SIZE))

set_option maxRecDepth 20000 in
/-- Claim C4 (code divergence at the failing input): `SetCapacity(21344)`
on a fresh trunk splits two levels deep, creating count-`0` branch nodes at
depth 2; no update ever passes them, so nothing enqueues them, `Normalize`
returns at once (empty queue, adds only, store agreeing with every cached
count) and the trunk root is a branch one of whose children is a non-root
branch with count `0 ≤ MAX_LEAF_SIZE`. -/
theorem normalize_keeps_small_branch :
    ((setCapacity trunkInit 21344 0).bind (fun t => normLoop sizedEmptySrc 5 t)).map
      (fun t => hasSmallNonRootBranch t
        && (t.nodes.getD 0 (CNode.mkLeaf 0 0)).is_branch) = .ok true := by
  rfl

/-! ### The secp256k1 multiset context of the trie engine (claim C9) -/

/-- From `multiset.h` line 10: the file-static secp256k1 context pointer
(`static secp256k1_context *context = nullptr`).  No statement in
`multiset.h`, `node.cpp` or `utxocommit/utxocommit.cpp` ever assigns it,
so it holds `nullptr` (`none`) for the whole process lifetime.  The
reference-counted context of `src/utxocommit.cpp` belongs to the separate
non-trie `CUtxoCommit` and is a different variable. -/
def multisetContext : Option Unit := none

/-- The trie engine constructor `CUtxoCommit::CUtxoCommit`
(`utxocommit/utxocommit.cpp` lines 10-14) only allocates the 16 trunks: as
a transformation of the multiset context pointer it is the identity. -/
def trieEngineCtorContext (c : Option Unit) : Option Unit := c

/-- The context argument `CMultiSet` passes to every
`secp256k1_multiset_init/add/remove/combine/finalize` call (`multiset.h`
lines 20-43): the file-static `context`. -/
def contextPassedByCMultiSet : Option Unit := multisetContext

/-- Claim C9 (code divergence): constructing the trie engine does not
initialise the multiset context, and every multiset call the engine
performs receives the still-null pointer — not a context initialised at
engine construction and valid throughout `Update`/`Normalize`/`Hash`. -/
theorem trie_multiset_context_never_initialised :
    trieEngineCtorContext multisetContext = none
      ∧ contextPassedByCMultiSet = none :=
  ⟨rfl, rfl⟩

/-! ### The compositional reading of `GetHash` (claim C2) -/

/-- The recursive node digest as the claim describes it: a leaf's digest is
the finalization of its multiset; a branch's digest is the digest of the
concatenation, in nibble order, of its 16 children's recursive digests. -/
def specNodeHash {D : Type} (M : HashModel D) (t : CTrunkNode) :
    Nat → Nat → Option D
  | 0, _ => none
  | fuel + 1, node_index =>
    match t.nodes.get? node_index with
    | none => none
    | some nd =>
      if nd.is_branch then
        match t.branches.get? nd.data with
        | none => none
        | some br => do
          let hs ← br.mapM (fun c => specNodeHash M t fuel c)
          some (M.sha hs)
      else (t.multisets.get? nd.data).map M.fin
termination_by fuel _ => fuel

/-- The engine digest as the claim describes it: the digest of the stream
listing each trunk's recursive root digest in trunk order. -/
def specGetHash {D : Type} (M : HashModel D) (E : CUtxoCommit) : Option D := do
  let hs ← E.trunkNodes.mapM (fun t => specNodeHash M t (t.nodes.length + 1) 0)
  some (M.sha hs)

/-- Threading an accumulating writer through a list equals mapping each
item's digest independently and appending the results. -/
theorem foldlM_writer_eq_mapM {A D : Type} (g : A → Option D)
    (step : List D → A → Option (List D))
    (hstep : ∀ acc a, step acc a = (g a).map (fun d => acc ++ [d])) :
    ∀ (l : List A) (acc : List D),
      l.foldlM step acc = (l.mapM g).map (fun ds => acc ++ ds) := by
  intro l
  induction l with
  | nil =>
    intro acc
    rw [List.foldlM_nil, List.mapM_nil]
    simp
  | cons a as ih =>
    intro acc
    rw [List.foldlM_cons, List.mapM_cons, hstep]
    cases hg : g a with
    | none => simp
    | some d =>
      show as.foldlM step (acc ++ [d])
          = Option.map (fun ds => acc ++ ds) (as.mapM g >>= fun xs => some (d :: xs))
      rw [ih]
      cases hm : as.mapM g with
      | none => simp
      | some ds => simp

/-- The writer-threading `hashNode` of the source equals the compositional
digest of the claim: running `Hash` with accumulator `acc` appends exactly
one digest, the node's recursive digest. -/
theorem hashNode_eq_specNodeHash {D : Type} (M : HashModel D) (t : CTrunkNode) :
    ∀ (fuel node_index : Nat) (acc : List D),
      hashNode M t fuel node_index acc =
        (specNodeHash M t fuel node_index).map (fun d => acc ++ [d]) := by
  intro fuel
  induction fuel with
  | zero => intro node_index acc; rw [hashNode, specNodeHash]; simp
  | succ fuel ih =>
    intro node_index acc
    rw [hashNode, specNodeHash]
    cases hnd : t.nodes.get? node_index with
    | none => simp
    | some nd =>
      simp only []
      by_cases hb : nd.is_branch
      · simp only [hb, if_true]
        cases hbr : t.branches.get? nd.data with
        | none => simp
        | some br =>
          simp only []
          rw [foldlM_writer_eq_mapM (fun c => specNodeHash M t fuel c)
            (fun a c => hashNode M t fuel c a) (fun acc a => ih a acc) br []]
          cases hm : br.mapM (fun c => specNodeHash M t fuel c) with
          | none => simp
          | some hs => simp
      · simp only [hb, if_false]
        cases hms : t.multisets.get? nd.data with
        | none => simp
        | some m => simp

/-- Claim C2: `GetHash` returns the digest of the stream formed by each
trunk's `Hash` of node index 0 in trunk order, where a leaf contributes the
finalization of its multiset and a branch contributes the digest of the
concatenation, in nibble order, of its 16 children's recursive digests. -/
theorem getHash_eq_specGetHash {D : Type} (M : HashModel D) (E : CUtxoCommit) :
    E.GetHash M = specGetHash M E := by
  unfold CUtxoCommit.GetHash specGetHash
  rw [foldlM_writer_eq_mapM (fun t => specNodeHash M t (t.nodes.length + 1) 0)
    (fun acc t => hashNode M t (t.nodes.length + 1) 0 acc)
    (fun acc t => hashNode_eq_specNodeHash M t (t.nodes.length + 1) 0 acc)
    E.trunkNodes []]
  cases hm : E.trunkNodes.mapM (fun t => specNodeHash M t (t.nodes.length + 1) 0) with
  | none => simp
  | some hs => simp

/-! ### Update sequences on a fresh engine (claims C1, C7)

`Update` never changes the tree shape, so every trunk of an engine that has
only ever been updated is still a single leaf.  Such an engine is described
by each trunk's count, multiset and queue. -/

/-- A sequence of engine updates, applied in order. -/
def applyOps (l : List (Element × Bool)) (E : CUtxoCommit) : Except EngineErr CUtxoCommit :=
  l.foldlM (fun E u => E.Update u.1 u.2) E

/-- A single-leaf trunk with count `c`, multiset `m` and queue `q`. -/
def flatTrunk (c : Nat) (m : MState) (q : List CNormalizeItem) : CTrunkNode :=
  { nodes := [CNode.mkLeaf c 0], branches := [], multisets := [m], denormalized := q }

/-- The per-trunk data of a flat engine. -/
abbrev FlatData := Nat × MState × List CNormalizeItem

/-- An engine all of whose trunks are single leaves, described by the data
function `f` on trunk indices `0..15`. -/
def flatEngine (f : Nat → FlatData) : CUtxoCommit :=
  { trunkNodes := (List.range BRANCH_COUNT).map (fun t => flatTrunk (f t).1 (f t).2.1 (f t).2.2) }

/-- The fresh engine is flat with all-zero data. -/
theorem engineInit_flat : engineInit = flatEngine (fun _ => (0, msEmpty, [])) := rfl

/-- What one `Update` does to a single-leaf trunk's data. -/
def trunkStep (s : FlatData) (e : Element) (rm : Bool) : FlatData :=
  (bumpCount s.1 rm, msUpdate s.2.1 e rm,
    s.2.2 ++ if MAX_LEAF_SIZE < bumpCount s.1 rm then [⟨0, 1 * BRANCH_BITS, e⟩] else [])

/-- `CTrunkNode::Update` on a single-leaf trunk: bump the count, update the
multiset, and enqueue the root leaf when the new count exceeds
`MAX_LEAF_SIZE`. -/
theorem trunkUpdate_flat (c : Nat) (m : MState) (q : List CNormalizeItem)
    (e : Element) (rm : Bool) (he : MIN_ELEMENT_SIZE ≤ e.length) :
    (flatTrunk c m q).Update e rm =
      .ok (flatTrunk (trunkStep (c, m, q) e rm).1 (trunkStep (c, m, q) e rm).2.1
        (trunkStep (c, m, q) e rm).2.2) := by
  rw [CTrunkNode.Update, if_pos he]
  show updateLoop e rm 2 (flatTrunk c m q) 0 1 = _
  rw [updateLoop]
  by_cases hc : MAX_LEAF_SIZE < bumpCount c rm
  · simp [flatTrunk, trunkStep, hc, CNode.mkLeaf]
  · simp [flatTrunk, trunkStep, hc, CNode.mkLeaf]

/-- The trunk selector stays below `BRANCH_COUNT`. -/
theorem trunkOf_lt (e : Element) : trunkOf e < BRANCH_COUNT := by
  have h : trunkOf e ≤ 0xF := Nat.and_le_right
  exact Nat.lt_of_le_of_lt h (by decide)

/-- Reading entry `i < n` of a mapped range. -/
theorem get?_map_range {α : Type} (n i : Nat) (hi : i < n) (g : Nat → α) :
    ((List.range n).map g).get? i = some (g i) := by
  rw [List.get?_map, List.get?_range hi]
  rfl

/-- Setting entry `i < n` of a mapped range gives the map of the pointwise
updated function. -/
theorem set_map_range {α : Type} (n i : Nat) (hi : i < n) (g : Nat → α) (v : α) :
    ((List.range n).map g).set i v
      = (List.range n).map (fun t => if t = i then v else g t) := by
  apply List.ext_get?
  intro j
  by_cases hj : j < n
  · by_cases hij : j = i
    · subst hij
      rw [List.get?_set_eq_of_lt, get?_map_range n j hj]
      · simp
      · simpa using hj
    · rw [List.get?_set_ne _ _ (fun h => hij h.symm), get?_map_range n j hj,
        get?_map_range n j hj]
      simp [hij]
  · have hlen : ∀ (l : List α), l.length = n → l.get? j = none := fun l hl => by
      apply List.get?_eq_none.mpr; omega
    rw [List.get?_set_ne _ _ (show i ≠ j from fun h => hj (h ▸ hi)),
      hlen _ (by simp), hlen _ (by simp)]

/-- The pointwise effect of one engine `Update` on flat data. -/
def pointStep (f : Nat → FlatData) (e : Element) (rm : Bool) : Nat → FlatData :=
  fun t => if t = trunkOf e then trunkStep (f t) e rm else f t

/-- `CUtxoCommit::Update` on a flat engine updates the selected trunk's
data and leaves the others unchanged. -/
theorem engineUpdate_flat (f : Nat → FlatData) (e : Element) (rm : Bool)
    (he : MIN_ELEMENT_SIZE ≤ e.length) :
    (flatEngine f).Update e rm = .ok (flatEngine (pointStep f e rm)) := by
  rw [CUtxoCommit.Update, if_pos he]
  have hget : (flatEngine f).trunkNodes.get? (trunkOf e)
      = some (flatTrunk (f (trunkOf e)).1 (f (trunkOf e)).2.1 (f (trunkOf e)).2.2) :=
    get?_map_range BRANCH_COUNT (trunkOf e) (trunkOf_lt e)
      (fun t => flatTrunk (f t).1 (f t).2.1 (f t).2.2)
  rw [hget]
  show (flatTrunk (f (trunkOf e)).1 (f (trunkOf e)).2.1 (f (trunkOf e)).2.2).Update e rm
      >>= (fun t' => Except.ok { trunkNodes := (flatEngine f).trunkNodes.set (trunkOf e) t' })
    = Except.ok (flatEngine (pointStep f e rm))
  rw [trunkUpdate_flat _ _ _ _ _ he]
  show Except.ok (CUtxoCommit.mk ((flatEngine f).trunkNodes.set (trunkOf e)
      (flatTrunk (trunkStep (f (trunkOf e)) e rm).1 (trunkStep (f (trunkOf e)) e rm).2.1
        (trunkStep (f (trunkOf e)) e rm).2.2)))
    = Except.ok (flatEngine (pointStep f e rm))
  apply congrArg (fun l => (Except.ok (CUtxoCommit.mk l) : Except EngineErr CUtxoCommit))
  show ((List.range BRANCH_COUNT).map
      (fun t => flatTrunk (f t).1 (f t).2.1 (f t).2.2)).set (trunkOf e)
      (flatTrunk (trunkStep (f (trunkOf e)) e rm).1 (trunkStep (f (trunkOf e)) e rm).2.1
        (trunkStep (f (trunkOf e)) e rm).2.2)
    = (List.range BRANCH_COUNT).map
      (fun t => flatTrunk (pointStep f e rm t).1 (pointStep f e rm t).2.1
        (pointStep f e rm t).2.2)
  rw [set_map_range _ _ (trunkOf_lt e)]
  apply List.map_congr_left
  intro t _
  by_cases ht : t = trunkOf e <;> simp [pointStep, ht]

/-- Flat-engine evolution under a whole update sequence: each trunk folds
`trunkStep` over the subsequence of operations it receives. -/
def engineFold (f : Nat → FlatData) (l : List (Element × Bool)) : Nat → FlatData :=
  fun t => (l.filter (fun u => decide (trunkOf u.1 = t))).foldl
    (fun s u => trunkStep s u.1 u.2) (f t)

/-- Applying a sequence of well-formed updates to a flat engine succeeds
and yields the flat engine of the folded data. -/
theorem applyOps_flat :
    ∀ (l : List (Element × Bool)) (f : Nat → FlatData),
      (∀ u ∈ l, MIN_ELEMENT_SIZE ≤ u.1.length) →
      applyOps l (flatEngine f) = .ok (flatEngine (engineFold f l)) := by
  intro l
  induction l with
  | nil =>
    intro f _
    show Except.ok (flatEngine f) = _
    have : engineFold f [] = f := funext (fun t => rfl)
    rw [this]
  | cons u us ih =>
    intro f hwf
    show (flatEngine f).Update u.1 u.2 >>= applyOps us = _
    rw [engineUpdate_flat f u.1 u.2 (hwf u (List.mem_cons_self u us))]
    show applyOps us (flatEngine (pointStep f u.1 u.2)) = _
    rw [ih _ (fun v hv => hwf v (List.mem_cons_of_mem u hv))]
    apply congrArg (fun g => (Except.ok (flatEngine g) : Except EngineErr CUtxoCommit))
    funext t
    show engineFold (pointStep f u.1 u.2) us t = engineFold f (u :: us) t
    rw [engineFold, engineFold, List.filter_cons]
    by_cases ht : trunkOf u.1 = t
    · subst ht
      rw [if_pos (by simp), List.foldl_cons]
      have hpt : pointStep f u.1 u.2 (trunkOf u.1) = trunkStep (f (trunkOf u.1)) u.1 u.2 := by
        simp [pointStep]
      rw [hpt]
    · rw [if_neg (by simp [ht])]
      have hpt : pointStep f u.1 u.2 t = f t := by
        simp only [pointStep]
        rw [if_neg (show ¬ t = trunkOf u.1 from fun h => ht h.symm)]
      rw [hpt]

/-- Mapping a pointwise-`some` function over a list collects the values. -/
theorem mapM_congr_some {α β : Type} (h : α → Option β) (k : α → β)
    (hk : ∀ a, h a = some (k a)) :
    ∀ l : List α, l.mapM h = some (l.map k) := by
  intro l
  induction l with
  | nil => rw [List.mapM_nil]; rfl
  | cons a as ih =>
    rw [List.mapM_cons, hk]
    show as.mapM h >>= (fun xs => some (k a :: xs)) = _
    rw [ih]
    rfl

/-- `mapM` over a mapped list composes the functions. -/
theorem mapM_map_comp {α β γ : Type} (g : α → β) (h : β → Option γ) :
    ∀ l : List α, (l.map g).mapM h = l.mapM (fun a => h (g a)) := by
  intro l
  induction l with
  | nil => rfl
  | cons a as ih =>
    rw [List.map_cons, List.mapM_cons, List.mapM_cons, ih]

/-- The recursive digest of a single-leaf trunk's root is the finalization
of its multiset. -/
theorem specNodeHash_flat {D : Type} (M : HashModel D) (c : Nat) (m : MState)
    (q : List CNormalizeItem) (fuel : Nat) :
    specNodeHash M (flatTrunk c m q) (fuel + 1) 0 = some (M.fin m) := by
  rw [specNodeHash]
  rfl

/-- `GetHash` of a flat engine: the digest of the 16 finalized trunk
multisets in trunk order. -/
theorem flatEngine_getHash {D : Type} (M : HashModel D) (f : Nat → FlatData) :
    (flatEngine f).GetHash M
      = some (M.sha ((List.range BRANCH_COUNT).map (fun t => M.fin (f t).2.1))) := by
  rw [getHash_eq_specGetHash]
  have hmm : (flatEngine f).trunkNodes.mapM (fun t => specNodeHash M t (t.nodes.length + 1) 0)
      = some ((List.range BRANCH_COUNT).map (fun t => M.fin (f t).2.1)) := by
    rw [show (flatEngine f).trunkNodes
        = (List.range BRANCH_COUNT).map (fun t => flatTrunk (f t).1 (f t).2.1 (f t).2.2)
      from rfl]
    rw [mapM_map_comp]
    exact mapM_congr_some _ _ (fun t => specNodeHash_flat M _ _ _ _) _
  rw [specGetHash, hmm]
  rfl

/-- Applying `msUpdate` along a list: the value at `x` changes by the
signed number of operations on `x`. -/
theorem foldl_msUpdate_apply :
    ∀ (l : List (Element × Bool)) (m0 : MState) (x : Element),
      (l.foldl (fun m u => msUpdate m u.1 u.2) m0) x
        = m0 x + (l.countP (fun u => decide (u.1 = x) && !u.2) : Int)
            - (l.countP (fun u => decide (u.1 = x) && u.2) : Int) := by
  intro l
  induction l with
  | nil => intro m0 x; simp
  | cons u us ih =>
    intro m0 x
    rw [List.foldl_cons, ih, List.countP_cons, List.countP_cons]
    rw [msUpdate]
    by_cases hx : x = u.1
    · have hd : decide (u.1 = x) = true := decide_eq_true hx.symm
      cases hrm : u.2 <;> simp [hx, hd, hrm] <;> push_cast <;> ring
    · have hne : ¬ u.1 = x := fun h => hx h.symm
      have hd : decide (u.1 = x) = false := by simp [hne]
      simp [hx, hd]

/-- The multiset component of a trunk-data fold is the `msUpdate` fold of
the multiset components. -/
theorem trunkStep_fold_ms :
    ∀ (l : List (Element × Bool)) (s : FlatData),
      (l.foldl (fun s u => trunkStep s u.1 u.2) s).2.1
        = l.foldl (fun m u => msUpdate m u.1 u.2) s.2.1 := by
  intro l
  induction l with
  | nil => intro s; rfl
  | cons u us ih => intro s; rw [List.foldl_cons, List.foldl_cons, ih]; rfl

/-- The signed number of `(x, add/remove)` operations a trunk receives
from an update sequence. -/
def sigCount (l : List (Element × Bool)) (t : Nat) (x : Element) : Int :=
  (l.countP (fun u => decide (trunkOf u.1 = t) && (decide (u.1 = x) && !u.2)) : Int)
    - (l.countP (fun u => decide (trunkOf u.1 = t) && (decide (u.1 = x) && u.2)) : Int)

/-- The multiset a trunk holds after an update sequence from the fresh
engine, pointwise: the signed operation count. -/
theorem engineFold_ms_apply (l : List (Element × Bool)) (t : Nat) (x : Element) :
    (engineFold (fun _ => (0, msEmpty, [])) l t).2.1 x = sigCount l t x := by
  rw [engineFold, trunkStep_fold_ms, foldl_msUpdate_apply, sigCount]
  rw [List.countP_filter, List.countP_filter]
  have hc : ∀ (p q : Element × Bool → Bool),
      List.countP (fun u => p u && q u) l = List.countP (fun u => q u && p u) l := by
    intro p q
    apply List.countP_congr
    intro u _
    rw [Bool.and_comm]
  rw [hc, hc (fun u => decide (u.1 = x) && u.2)]
  show msEmpty x + _ - _ = _
  rw [msEmpty]
  ring

/-- The digest after any well-formed update sequence on a fresh engine,
as a function of the signed per-trunk operation counts alone. -/
theorem applyOps_getHash {D : Type} (M : HashModel D) (l : List (Element × Bool))
    (hwf : ∀ u ∈ l, MIN_ELEMENT_SIZE ≤ u.1.length) :
    (applyOps l engineInit).map (fun E => E.GetHash M)
      = .ok (some (M.sha ((List.range BRANCH_COUNT).map
          (fun t => M.fin (fun x => sigCount l t x))))) := by
  rw [engineInit_flat, applyOps_flat l _ hwf]
  show Except.ok ((flatEngine (engineFold _ l)).GetHash M) = _
  rw [flatEngine_getHash]
  apply congrArg (fun d => (Except.ok (some (M.sha d)) : Except EngineErr (Option D)))
  apply List.map_congr_left
  intro t _
  apply congrArg M.fin
  funext x
  exact engineFold_ms_apply l t x

/-- Claim C1: for every finite sequence of well-formed `Update` calls on a
fresh engine, `GetHash` depends only on the signed multiset of
`(element, remove)` pairs applied: any permutation of the updates yields
the same digest, and adding a set `A` and then removing the same elements
in any order returns `GetHash` to the empty-engine value. -/
theorem getHash_order_independent {D : Type} (M : HashModel D) :
    (∀ (l1 l2 : List (Element × Bool)),
      List.Perm l1 l2 → (∀ u ∈ l1, MIN_ELEMENT_SIZE ≤ u.1.length) →
      (applyOps l1 engineInit).map (fun E => E.GetHash M)
        = (applyOps l2 engineInit).map (fun E => E.GetHash M))
    ∧ (∀ (A B : List Element),
      List.Perm A B → (∀ e ∈ A, MIN_ELEMENT_SIZE ≤ e.length) →
      (applyOps (A.map (fun e => (e, false)) ++ B.map (fun e => (e, true)))
          engineInit).map (fun E => E.GetHash M)
        = .ok (engineInit.GetHash M)) := by
  constructor
  · intro l1 l2 hperm hwf
    have hwf2 : ∀ u ∈ l2, MIN_ELEMENT_SIZE ≤ u.1.length :=
      fun u hu => hwf u (hperm.mem_iff.mpr hu)
    rw [applyOps_getHash M l1 hwf, applyOps_getHash M l2 hwf2]
    apply congrArg (fun d => (Except.ok (some (M.sha d)) : Except EngineErr (Option D)))
    apply List.map_congr_left
    intro t _
    apply congrArg M.fin
    funext x
    rw [sigCount, sigCount, hperm.countP_eq, hperm.countP_eq]
  · intro A B hperm hwf
    have hwfl : ∀ u ∈ A.map (fun e => (e, false)) ++ B.map (fun e => (e, true)),
        MIN_ELEMENT_SIZE ≤ u.1.length := by
      intro u hu
      rcases List.mem_append.mp hu with h | h
      · rcases List.mem_map.mp h with ⟨e, he, rfl⟩
        exact hwf e he
      · rcases List.mem_map.mp h with ⟨e, he, rfl⟩
        exact hwf e (hperm.mem_iff.mpr he)
    rw [applyOps_getHash M _ hwfl, engineInit_flat, flatEngine_getHash]
    apply congrArg (fun d => (Except.ok (some (M.sha d)) : Except EngineErr (Option D)))
    apply List.map_congr_left
    intro t _
    apply congrArg M.fin
    funext x
    show sigCount (A.map (fun e => (e, false)) ++ B.map (fun e => (e, true))) t x = 0
    rw [sigCount, List.countP_append, List.countP_append,
      List.countP_map, List.countP_map, List.countP_map, List.countP_map]
    have hremA : A.countP ((fun u : Element × Bool =>
        decide (trunkOf u.1 = t) && (decide (u.1 = x) && u.2)) ∘ (fun e => (e, false))) = 0 := by
      apply List.countP_eq_zero.mpr
      intro e _
      simp [Function.comp]
    have haddB : B.countP ((fun u : Element × Bool =>
        decide (trunkOf u.1 = t) && (decide (u.1 = x) && !u.2)) ∘ (fun e => (e, true))) = 0 := by
      apply List.countP_eq_zero.mpr
      intro e _
      simp [Function.comp]
    have hAB : A.countP ((fun u : Element × Bool =>
          decide (trunkOf u.1 = t) && (decide (u.1 = x) && !u.2)) ∘ (fun e => (e, false)))
        = B.countP ((fun u : Element × Bool =>
          decide (trunkOf u.1 = t) && (decide (u.1 = x) && u.2)) ∘ (fun e => (e, true))) := by
      rw [hperm.countP_eq]
      apply List.countP_congr
      intro e _
      simp [Function.comp]
    rw [hremA, haddB, hAB]
    omega

/-- Witness for `getHash_order_independent`: swapping two concrete adds
gives the same digest, and adding then removing a concrete pair restores
the fresh digest. -/
theorem getHash_order_independent_witness :
    ((applyOps [([0x12, 0, 0, 0], false), ([0x34, 0, 0, 0], false)] engineInit).map
        (fun E => E.GetHash freeDigest)
      = (applyOps [([0x34, 0, 0, 0], false), ([0x12, 0, 0, 0], false)] engineInit).map
        (fun E => E.GetHash freeDigest))
    ∧ ((applyOps ([[0x12, 0, 0, 0], [0x34, 0, 0, 0]].map (fun e => (e, false))
          ++ [[0x34, 0, 0, 0], [0x12, 0, 0, 0]].map (fun e => (e, true)))
        engineInit).map (fun E => E.GetHash freeDigest)
      = .ok (engineInit.GetHash freeDigest)) :=
  ⟨(getHash_order_independent freeDigest).1 _ _ (by decide) (by decide),
    (getHash_order_independent freeDigest).2 [[0x12, 0, 0, 0], [0x34, 0, 0, 0]]
      [[0x34, 0, 0, 0], [0x12, 0, 0, 0]] (by decide) (by decide)⟩

/-- Claim C7: on a fresh engine, after `Update`-adding 2000 elements whose
first byte is `0x3d` and 1000 elements whose first byte is `0x3e` (all of
length at least `MIN_ELEMENT_SIZE`) and before any `Normalize`, `GetHash`
is the digest of the stream of 3 empty-multiset finalizations, then the
finalization of the single multiset accumulating all 3000 elements, then
12 empty-multiset finalizations. -/
theorem getHash_two_prefix_scenario {D : Type} (M : HashModel D) (l1 l2 : List Element)
    (h1len : l1.length = 2000)
    (h1 : ∀ e ∈ l1, e.getD 0 0 = 0x3d ∧ MIN_ELEMENT_SIZE ≤ e.length)
    (h2len : l2.length = 1000)
    (h2 : ∀ e ∈ l2, e.getD 0 0 = 0x3e ∧ MIN_ELEMENT_SIZE ≤ e.length) :
    (applyOps ((l1 ++ l2).map (fun e => (e, false))) engineInit).map
        (fun E => E.GetHash M)
      = .ok (some (M.sha (List.replicate 3 (M.fin msEmpty)
          ++ M.fin (msOfOps ((l1 ++ l2).map (fun e => (e, false))))
            :: List.replicate 12 (M.fin msEmpty)))) := by
  have hmem : ∀ u ∈ (l1 ++ l2).map (fun e => (e, false)),
      trunkOf u.1 = 3 ∧ MIN_ELEMENT_SIZE ≤ u.1.length ∧ u.2 = false := by
    intro u hu
    rcases List.mem_map.mp hu with ⟨e, he, rfl⟩
    rcases List.mem_append.mp he with h | h
    · refine ⟨?_, (h1 e h).2, rfl⟩
      show ((e.getD 0 0) >>> 4) &&& 0xF = 3
      rw [(h1 e h).1]
      rfl
    · refine ⟨?_, (h2 e h).2, rfl⟩
      show ((e.getD 0 0) >>> 4) &&& 0xF = 3
      rw [(h2 e h).1]
      rfl
  rw [applyOps_getHash M _ (fun u hu => (hmem u hu).2.1)]
  apply congrArg (fun d => (Except.ok (some (M.sha d)) : Except EngineErr (Option D)))
  calc (List.range BRANCH_COUNT).map
        (fun t => M.fin (fun x => sigCount ((l1 ++ l2).map (fun e => (e, false))) t x))
      = (List.range BRANCH_COUNT).map
        (fun t => if t = 3 then M.fin (msOfOps ((l1 ++ l2).map (fun e => (e, false))))
          else M.fin msEmpty) := by
        apply List.map_congr_left
        intro t _
        by_cases ht : t = 3
        · subst ht
          rw [if_pos rfl]
          apply congrArg M.fin
          funext x
          rw [sigCount, msOfOps, foldl_msUpdate_apply]
          have ha : List.countP
              (fun u => decide (trunkOf u.1 = 3) && (decide (u.1 = x) && !u.2))
              ((l1 ++ l2).map (fun e => (e, false)))
              = List.countP (fun u => decide (u.1 = x) && !u.2)
                ((l1 ++ l2).map (fun e => (e, false))) := by
            apply List.countP_congr
            intro u hu
            rw [(hmem u hu).1]
            simp
          have hr : List.countP
              (fun u => decide (trunkOf u.1 = 3) && (decide (u.1 = x) && u.2))
              ((l1 ++ l2).map (fun e => (e, false)))
              = List.countP (fun u => decide (u.1 = x) && u.2)
                ((l1 ++ l2).map (fun e => (e, false))) := by
            apply List.countP_congr
            intro u hu
            rw [(hmem u hu).1]
            simp
          rw [ha, hr]
          show _ = msEmpty x + _ - _
          rw [msEmpty]
          ring
        · rw [if_neg ht]
          apply congrArg M.fin
          funext x
          show sigCount _ t x = msEmpty x
          rw [msEmpty, sigCount]
          have hne : ¬ (3 : Nat) = t := fun h => ht h.symm
          have hz1 : List.countP
              (fun u => decide (trunkOf u.1 = t) && (decide (u.1 = x) && !u.2))
              ((l1 ++ l2).map (fun e => (e, false))) = 0 := by
            apply List.countP_eq_zero.mpr
            intro u hu
            rw [(hmem u hu).1]
            simp [hne]
          have hz2 : List.countP
              (fun u => decide (trunkOf u.1 = t) && (decide (u.1 = x) && u.2))
              ((l1 ++ l2).map (fun e => (e, false))) = 0 := by
            apply List.countP_eq_zero.mpr
            intro u hu
            rw [(hmem u hu).1]
            simp [hne]
          rw [hz1, hz2]
          rfl
    _ = List.replicate 3 (M.fin msEmpty)
          ++ M.fin (msOfOps ((l1 ++ l2).map (fun e => (e, false))))
            :: List.replicate 12 (M.fin msEmpty) := by
        rw [show List.range BRANCH_COUNT
            = [0, 1, 2, 3, 4, 5, 6, 7, 8, 9, 10, 11, 12, 13, 14, 15] from rfl]
        simp [List.replicate]

/-- Witness for `getHash_two_prefix_scenario` with 2000 copies of
`3d000000` and 1000 copies of `3e000000`. -/
theorem getHash_two_prefix_scenario_witness :
    (applyOps ((List.replicate 2000 ([0x3d, 0, 0, 0] : Element)
          ++ List.replicate 1000 ([0x3e, 0, 0, 0] : Element)).map (fun e => (e, false)))
        engineInit).map (fun E => E.GetHash freeDigest)
      = .ok (some (freeDigest.sha (List.replicate 3 (freeDigest.fin msEmpty)
          ++ freeDigest.fin (msOfOps ((List.replicate 2000 ([0x3d, 0, 0, 0] : Element)
              ++ List.replicate 1000 ([0x3e, 0, 0, 0] : Element)).map (fun e => (e, false))))
            :: List.replicate 12 (freeDigest.fin msEmpty)))) :=
  getHash_two_prefix_scenario freeDigest _ _ (by rw [List.length_replicate]) (by
      intro e he
      rw [List.eq_of_mem_replicate he]
      exact ⟨rfl, by decide⟩)
    (by rw [List.length_replicate]) (by
      intro e he
      rw [List.eq_of_mem_replicate he]
      exact ⟨rfl, by decide⟩)

/-! ### The split case of `Normalize` (claim C5) -/

/-- `setNibble` keeps the prefix length. -/
theorem setNibble_length (depth : Nat) (p : Element) (n : Nat) :
    (setNibble depth p n).length = p.length := by
  rw [setNibble, List.length_set]

/-- A value below 16 has no bits in the high-nibble mask. -/
theorem small_and_highmask (m : Nat) (hm : m < 16) : m &&& 0xF0 = 0 := by
  interval_cases m <;> decide

/-- A shifted nibble has no bits in the low-nibble mask. -/
theorem shift_and_lowmask (m : Nat) : (m <<< 4) &&& 0xF = 0 := by
  have h := Nat.and_pow_two_sub_one_eq_mod (m <<< 4) 4
  rw [show (2 : Nat) ^ 4 - 1 = 15 from rfl] at h
  rw [show (0xF : Nat) = 15 from rfl, h, Nat.shiftLeft_eq, Nat.mul_mod_left]

/-- Overwriting the same nibble twice is overwriting it once: the sequence
of in-place prefix mutations in `Normalize`'s enqueue loop writes, at each
`n`, the nibble `n` into the original prefix. -/
theorem setNibble_absorb (depth : Nat) (q : Element) (m n : Nat)
    (hq : depth / 2 < q.length) (hm : m < 16) :
    setNibble depth (setNibble depth q m) n = setNibble depth q n := by
  rw [setNibble, setNibble, setNibble, List.set_set]
  congr 2
  have hget : ∀ v : Byte, (q.set (depth / 2) v).getD (depth / 2) 0 = v := by
    intro v
    rw [List.getD_eq_getElem?_getD, List.getElem?_set_self (by simpa using hq)]
    rfl
  rw [hget]
  by_cases hpar : depth % 2 = 1
  · simp only [hpar, if_pos]
    rw [Nat.and_distrib_right, small_and_highmask m hm, Nat.or_zero,
      Nat.and_assoc, Nat.and_self]
  · simp only [hpar, if_neg, if_false]
    rw [Nat.and_distrib_right, shift_and_lowmask m, Nat.or_zero,
      Nat.and_assoc, Nat.and_self]

/-- The enqueue loop of the split case appends, for each listed nibble `n`,
an item for child `base + n` whose prefix is the original prefix with the
nibble at `depth` overwritten by `n`. -/
theorem enqueueChildren_items (depth base bits : Nat) (p : Element)
    (hp : depth / 2 < p.length) :
    ∀ (ns : List Nat) (p0 : Element) (acc : List CNormalizeItem),
      (∀ n ∈ ns, n < 16) →
      p0.length = p.length →
      (∀ k, setNibble depth p0 k = setNibble depth p k) →
      (enqueueChildren depth base bits ns p0 acc).2
        = acc ++ ns.map (fun n => ⟨base + n, bits, setNibble depth p n⟩) := by
  intro ns
  induction ns with
  | nil =>
    intro p0 acc _ _ _
    rw [enqueueChildren, List.map_nil, List.append_nil]
  | cons n ns ih =>
    intro p0 acc hlt hlen hsn
    rw [enqueueChildren, List.map_cons]
    rw [hsn n]
    rw [ih (setNibble depth p n) _ (fun k hk => hlt k (List.mem_cons_of_mem n hk))
      (by rw [setNibble_length])
      (fun k => setNibble_absorb depth p n k hp (hlt n (List.mem_cons_self n ns)))]
    simp

/-- A nibble extracted by `get_branch` is below `BRANCH_COUNT`. -/
theorem get_branch_lt (depth : Nat) (e : Element) : get_branch depth e < 16 := by
  have h : get_branch depth e ≤ 0xF := Nat.and_le_right
  omega

/-- The multiset accumulating the given elements, each added once. -/
def msAdds (l : List Element) : MState :=
  l.foldl (fun m y => msUpdate m y false) msEmpty

/-- The multiset arena index of the `n`-th child created by splitting a
leaf of `t` with record `nd`: child 0 reuses the leaf's index, child `n`
gets the `(n-1)`-th freshly appended slot. -/
def splitDataOf (t : CTrunkNode) (nd : CNode) (n : Nat) : Nat :=
  if n = 0 then nd.data else t.multisets.length + (n - 1)

/-- The trunk state during the redistribution phase of a split of node
`idx` of `t` (a leaf with record `nd`): the node has become a branch with
its count kept, the 16 fresh children at the end of the node arena hold
counts `cnt` and multisets `mv`, and the fresh branch record lists them in
nibble order. -/
def splitShape (t : CTrunkNode) (idx : Nat) (nd : CNode) (cnt : Nat → Nat)
    (mv : Nat → MState) (q : List CNormalizeItem) : CTrunkNode :=
  { nodes := (t.nodes.set idx ⟨nd.count, t.branches.length, true⟩)
      ++ (List.range BRANCH_COUNT).map (fun n => ⟨cnt n, splitDataOf t nd n, false⟩),
    branches := t.branches ++ [(List.range BRANCH_COUNT).map (fun k => t.nodes.length + k)],
    multisets := (t.multisets.set nd.data (mv 0))
      ++ (List.range (BRANCH_COUNT - 1)).map (fun k => mv (k + 1)),
    denormalized := q }

/-- Reading the `b`-th fresh child of a split shape. -/
theorem splitShape_nodes_get (t : CTrunkNode) (idx : Nat) (nd : CNode)
    (cnt : Nat → Nat) (mv : Nat → MState) (q : List CNormalizeItem)
    (b : Nat) (hb : b < 16) :
    (splitShape t idx nd cnt mv q).nodes.get? (t.nodes.length + b)
      = some ⟨cnt b, splitDataOf t nd b, false⟩ := by
  rw [splitShape]
  rw [List.get?_eq_getElem?, List.getElem?_append_right (by rw [List.length_set]; omega)]
  rw [List.length_set, Nat.add_sub_cancel_left]
  rw [← List.get?_eq_getElem?, get?_map_range BRANCH_COUNT b hb]

/-- Bumping the `b`-th fresh child's count in a split shape. -/
theorem splitShape_nodes_set (t : CTrunkNode) (idx : Nat) (nd : CNode)
    (cnt : Nat → Nat) (mv : Nat → MState) (q : List CNormalizeItem)
    (b : Nat) (hb : b < 16) (c' : Nat) :
    (splitShape t idx nd cnt mv q).nodes.set (t.nodes.length + b)
        ⟨c', splitDataOf t nd b, false⟩
      = (splitShape t idx nd (fun n => if n = b then c' else cnt n) mv q).nodes := by
  rw [splitShape, splitShape]
  rw [List.set_append_right _ _ (by rw [List.length_set]; omega)]
  rw [List.length_set, Nat.add_sub_cancel_left, set_map_range BRANCH_COUNT b hb]
  apply congrArg
  apply List.map_congr_left
  intro n _
  by_cases hn : n = b
  · subst hn; simp
  · simp [hn]

/-- Reading the `b`-th fresh child's multiset slot in a split shape. -/
theorem splitShape_ms_get (t : CTrunkNode) (idx : Nat) (nd : CNode)
    (cnt : Nat → Nat) (mv : Nat → MState) (q : List CNormalizeItem)
    (hms : nd.data < t.multisets.length) (b : Nat) (hb : b < 16) :
    (splitShape t idx nd cnt mv q).multisets.get? (splitDataOf t nd b)
      = some (mv b) := by
  rw [splitShape, splitDataOf]
  by_cases hb0 : b = 0
  · subst hb0
    rw [if_pos rfl, List.get?_eq_getElem?, List.getElem?_append]
    rw [if_pos (by rw [List.length_set]; omega)]
    rw [List.getElem?_set_self (by omega)]
  · rw [if_neg hb0, List.get?_eq_getElem?,
      List.getElem?_append_right (by rw [List.length_set]; omega)]
    rw [List.length_set, Nat.add_sub_cancel_left]
    rw [← List.get?_eq_getElem?, get?_map_range (BRANCH_COUNT - 1) (b - 1) (by show b - 1 < 16 - 1; omega)]
    have : b - 1 + 1 = b := by omega
    rw [this]

/-- Updating the `b`-th fresh child's multiset slot in a split shape. -/
theorem splitShape_ms_set (t : CTrunkNode) (idx : Nat) (nd : CNode)
    (cnt : Nat → Nat) (mv : Nat → MState) (q : List CNormalizeItem)
    (hms : nd.data < t.multisets.length) (b : Nat) (hb : b < 16) (V : MState) :
    (splitShape t idx nd cnt mv q).multisets.set (splitDataOf t nd b) V
      = (splitShape t idx nd cnt (fun n => if n = b then V else mv n) q).multisets := by
  show (splitShape t idx nd cnt mv q).multisets.set (splitDataOf t nd b) V
      = (t.multisets.set nd.data (if 0 = b then V else mv 0))
        ++ (List.range (BRANCH_COUNT - 1)).map
          (fun k => if k + 1 = b then V else mv (k + 1))
  rw [splitShape, splitDataOf]
  by_cases hb0 : b = 0
  · subst hb0
    rw [if_pos rfl, List.set_append_left _ _ (by rw [List.length_set]; omega),
      List.set_set, if_pos rfl]
    apply congrArg
    apply List.map_congr_left
    intro k _
    rw [if_neg (by omega)]
  · rw [if_neg hb0, List.set_append_right _ _ (by rw [List.length_set]; omega),
      List.length_set, Nat.add_sub_cancel_left,
      set_map_range (BRANCH_COUNT - 1) (b - 1) (by show b - 1 < 16 - 1; omega)]
    rw [if_neg (show ¬ (0 = b) from fun h => hb0 h.symm)]
    apply congrArg₂ List.append rfl
    apply List.map_congr_left
    intro k _
    by_cases hk : k = b - 1
    · subst hk
      rw [if_pos rfl, if_pos (by omega)]
    · rw [if_neg hk, if_neg (by omega)]

/-- One iteration of the redistribution loop on a split shape: the element
goes to the child selected by its nibble at `depth`, bumping that child's
count and adding the element to that child's multiset. -/
theorem redistribute_splitShape_step (t : CTrunkNode) (idx : Nat) (nd : CNode)
    (q : List CNormalizeItem) (depth : Nat) (hms : nd.data < t.multisets.length)
    (y : Element) (ys : List Element) (cnt : Nat → Nat) (mv : Nat → MState)
    (added : Nat) (hy : branchInBounds depth y) :
    redistribute depth t.nodes.length (y :: ys) (splitShape t idx nd cnt mv q) added
      = redistribute depth t.nodes.length ys
          (splitShape t idx nd
            (fun n => if n = get_branch depth y
              then (cnt (get_branch depth y) + 1) % U64 else cnt n)
            (fun n => if n = get_branch depth y
              then msUpdate (mv (get_branch depth y)) y false else mv n) q)
          ((added + 1) % U64) := by
  have hblt := get_branch_lt depth y
  rw [redistribute, if_pos hy]
  dsimp only
  rw [splitShape_nodes_get t idx nd cnt mv q (get_branch depth y) hblt]
  dsimp only
  rw [splitShape_ms_get t idx nd cnt mv q hms (get_branch depth y) hblt]
  dsimp only
  rw [splitShape_nodes_set t idx nd cnt mv q (get_branch depth y) hblt
      ((cnt (get_branch depth y) + 1) % U64),
    splitShape_ms_set t idx nd cnt mv q hms (get_branch depth y) hblt
      (msUpdate (mv (get_branch depth y)) y false)]
  rfl

/-- The whole redistribution loop on a split shape: each child `n` gains
the number of yielded elements whose nibble at `depth` is `n`, its multiset
accumulates exactly those elements in order, and `added` counts all yielded
elements (`uint64_t` arithmetic throughout). -/
theorem redistribute_splitShape (t : CTrunkNode) (idx : Nat) (nd : CNode)
    (q : List CNormalizeItem) (depth : Nat) (hms : nd.data < t.multisets.length) :
    ∀ (ys : List Element) (cnt : Nat → Nat) (mv : Nat → MState) (added : Nat),
      (∀ y ∈ ys, branchInBounds depth y) →
      (∀ n, cnt n < U64) → added < U64 →
      redistribute depth t.nodes.length ys (splitShape t idx nd cnt mv q) added
        = .ok (splitShape t idx nd
            (fun n => (cnt n + ys.countP (fun y => get_branch depth y == n)) % U64)
            (fun n => (ys.filter (fun y => get_branch depth y == n)).foldl
                (fun m y => msUpdate m y false) (mv n))
            q,
          (added + ys.length) % U64) := by
  intro ys
  induction ys with
  | nil =>
    intro cnt mv added _ hcb ha
    rw [redistribute]
    rw [show (fun n => (cnt n
        + List.countP (fun y => get_branch depth y == n) []) % U64) = cnt from
      funext (fun n => by rw [List.countP_nil, Nat.add_zero, Nat.mod_eq_of_lt (hcb n)])]
    rw [show (fun n => List.foldl (fun m y => msUpdate m y false) (mv n)
        (List.filter (fun y => get_branch depth y == n) [])) = mv from
      funext (fun n => by rw [List.filter_nil, List.foldl_nil])]
    rw [show (added + List.length ([] : List Element)) % U64 = added from by
      rw [List.length_nil, Nat.add_zero, Nat.mod_eq_of_lt ha]]
  | cons y ys ih =>
    intro cnt mv added hyb hcb ha
    rw [redistribute_splitShape_step t idx nd q depth hms y ys cnt mv added
      (hyb y (List.mem_cons_self y ys))]
    rw [ih _ _ _ (fun z hz => hyb z (List.mem_cons_of_mem y hz))
      (fun n => by
        by_cases hn : n = get_branch depth y
        · rw [if_pos hn]; exact Nat.mod_lt _ (by decide)
        · rw [if_neg hn]; exact hcb n)
      (Nat.mod_lt _ (by decide))]
    apply congrArg (fun s => (Except.ok s : Except EngineErr (CTrunkNode × Nat)))
    apply congrArg₂ Prod.mk
    · apply congrArg₂ (fun a b => splitShape t idx nd a b q)
      · funext n
        by_cases hn : n = get_branch depth y
        · subst hn
          rw [if_pos rfl, Nat.mod_add_mod,
            List.countP_cons_of_pos _ _ (by rw [beq_iff_eq])]
          apply congrArg (fun a => a % U64)
          omega
        · rw [if_neg hn,
            List.countP_cons_of_neg _ _ (by rw [beq_iff_eq]; exact fun h => hn h.symm)]
      · funext n
        by_cases hn : n = get_branch depth y
        · subst hn
          rw [if_pos rfl, List.filter_cons_of_pos (by rw [beq_iff_eq]), List.foldl_cons]
        · rw [if_neg hn,
            List.filter_cons_of_neg (by rw [beq_iff_eq]; exact fun h => hn h.symm)]
    · rw [List.length_cons, Nat.mod_add_mod]
      apply congrArg (fun a => a % U64)
      omega

/-- The node arena of a split shape has 16 more entries than the trunk's. -/
theorem splitShape_nodes_length (t : CTrunkNode) (idx : Nat) (nd : CNode)
    (cnt : Nat → Nat) (mv : Nat → MState) (q : List CNormalizeItem) :
    (splitShape t idx nd cnt mv q).nodes.length = t.nodes.length + BRANCH_COUNT := by
  rw [splitShape]
  show ((t.nodes.set idx _) ++ _).length = _
  rw [List.length_append, List.length_set, List.length_map, List.length_range]

/-- `SplitNode` after the multiset reset of the split case produces exactly
the initial split shape: 16 zero-count children, child 0 reusing the old
multiset slot (now empty), the rest pointing at fresh empty slots. -/
theorem splitNode_after_reset (t : CTrunkNode) (idx : Nat) (nd : CNode)
    (hnd : t.nodes.get? idx = some nd) :
    SplitNode { t with multisets := t.multisets.set nd.data msEmpty } idx
      = splitShape t idx nd (fun _ => 0) (fun _ => msEmpty) t.denormalized := by
  rw [SplitNode, splitShape]
  have hgd : ({ t with multisets := t.multisets.set nd.data msEmpty }
      : CTrunkNode).nodes.getD idx (CNode.mkLeaf 0 0) = nd := by
    show t.nodes.getD idx (CNode.mkLeaf 0 0) = nd
    rw [List.getD_eq_getElem?_getD, ← List.get?_eq_getElem?, hnd]
    rfl
  rw [hgd]
  show CTrunkNode.mk _ _ _ _ = CTrunkNode.mk _ _ _ _
  congr 1
  · show t.nodes.set idx { nd with data := t.branches.length, is_branch := true }
        ++ (CNode.mkLeaf 0 nd.data ::
          (List.range (BRANCH_COUNT - 1)).map
            (fun k => CNode.mkLeaf 0 ((t.multisets.set nd.data msEmpty).length + k)))
      = t.nodes.set idx ⟨nd.count, t.branches.length, true⟩
        ++ (List.range BRANCH_COUNT).map
          (fun n => ⟨0, splitDataOf t nd n, false⟩)
    apply congrArg₂ List.append rfl
    rw [show BRANCH_COUNT = (BRANCH_COUNT - 1) + 1 from rfl, List.range_succ_eq_map,
      List.map_cons, List.map_map]
    apply congrArg₂ List.cons
    · rw [splitDataOf, if_pos rfl]
      rfl
    · apply List.map_congr_left
      intro k _
      show CNode.mkLeaf 0 ((t.multisets.set nd.data msEmpty).length + k)
        = ⟨0, splitDataOf t nd (k + 1), false⟩
      rw [List.length_set, splitDataOf, if_neg (Nat.succ_ne_zero k),
        Nat.add_sub_cancel]
      rfl

/-- Claim C5: when `Normalize` processes a queued item whose node is a
leaf with count above `MAX_LEAF_SIZE`, it captures the original count,
resets that leaf's multiset to empty, appends 16 new count-0 leaves (the
first reusing the original multiset index, the other 15 fresh empty slots)
and a branch record referencing them in nibble order, turns the node into
a branch keeping the original count, re-adds every element the store range
yields into the child selected by the element's nibble at this depth
(bumping that child's count and multiset), and enqueues the 16 children
with the prefix nibble at this depth overwritten by the child's nibble and
`bits` increased by 4 — asserting that the number of yielded elements
equals the original count, fatally otherwise. -/
theorem normProcess_split (src : CUtxoDataSet) (t : CTrunkNode)
    (item : CNormalizeItem) (rest : List CNormalizeItem) (nd : CNode)
    (hnd : t.nodes.get? item.node_index = some nd)
    (hleaf : nd.is_branch = false)
    (hbig : MAX_LEAF_SIZE < nd.count)
    (hms : nd.data < t.multisets.length)
    (hbits : item.bits % 4 = 0)
    (hpfx : item.bits / 4 / 2 < item.pfx.length)
    (hyb : ∀ y ∈ src.GetRange item.pfx item.bits, branchInBounds (item.bits / 4) y) :
    (nd.count = (src.GetRange item.pfx item.bits).length % U64 →
      normProcess src t item rest
        = .ok (splitShape t item.node_index nd
            (fun n => ((src.GetRange item.pfx item.bits).countP
                (fun y => get_branch (item.bits / 4) y == n)) % U64)
            (fun n => msAdds ((src.GetRange item.pfx item.bits).filter
                (fun y => get_branch (item.bits / 4) y == n)))
            (rest ++ (List.range BRANCH_COUNT).map (fun n =>
              (⟨t.nodes.length + n, item.bits + 4,
                setNibble (item.bits / 4) item.pfx n⟩ : CNormalizeItem)))))
    ∧ (nd.count ≠ (src.GetRange item.pfx item.bits).length % U64 →
      normProcess src t item rest = .error .storeMismatch) := by
  have hcommon : normProcess src t item rest
      = (if nd.count = (src.GetRange item.pfx item.bits).length % U64 then
          .ok (splitShape t item.node_index nd
            (fun n => ((src.GetRange item.pfx item.bits).countP
                (fun y => get_branch (item.bits / 4) y == n)) % U64)
            (fun n => msAdds ((src.GetRange item.pfx item.bits).filter
                (fun y => get_branch (item.bits / 4) y == n)))
            (rest ++ (List.range BRANCH_COUNT).map (fun n =>
              (⟨t.nodes.length + n, item.bits + 4,
                setNibble (item.bits / 4) item.pfx n⟩ : CNormalizeItem))))
        else .error .storeMismatch) := by
    rw [normProcess, hnd]
    dsimp only
    rw [if_neg (show ¬(nd.is_branch = true ∧ nd.count ≤ MAX_LEAF_SIZE) from
      fun h => by rw [hleaf] at h; exact Bool.noConfusion h.1)]
    rw [if_pos ⟨hleaf, hbig⟩]
    cases hg : t.multisets.get? nd.data with
    | none =>
      rw [List.get?_eq_getElem?] at hg
      rw [List.getElem?_eq_none_iff] at hg
      omega
    | some m =>
      dsimp only
      rw [splitNode_after_reset t item.node_index nd hnd]
      rw [show (splitShape t item.node_index nd (fun _ => 0) (fun _ => msEmpty)
          t.denormalized).nodes.length - BRANCH_COUNT = t.nodes.length from by
        rw [splitShape_nodes_length]; omega]
      rw [redistribute_splitShape t item.node_index nd t.denormalized
        (item.bits / 4) hms (src.GetRange item.pfx item.bits)
        (fun _ => 0) (fun _ => msEmpty) 0 hyb
        (fun _ => ((by decide : (0 : Nat) < U64) : (fun _ => 0 : Nat → Nat) _ < U64))
        (by decide : (0 : Nat) < U64)]
      show (if nd.count = (0 + (src.GetRange item.pfx item.bits).length) % U64
          then _ else Except.error EngineErr.storeMismatch) = _
      rw [Nat.zero_add]
      by_cases hcnt : nd.count = (src.GetRange item.pfx item.bits).length % U64
      · rw [if_pos hcnt, if_pos hcnt, if_pos hpfx]
        rw [enqueueChildren_items (item.bits / 4) t.nodes.length
          (item.bits / 4 * 4 + 4) item.pfx hpfx (List.range BRANCH_COUNT) item.pfx []
          (fun n hn => List.mem_range.mp hn) rfl (fun _ => rfl)]
        rw [List.nil_append]
        rw [show item.bits / 4 * 4 + 4 = item.bits + 4 from by omega]
        rw [show (fun n => (0 + List.countP
            (fun y => get_branch (item.bits / 4) y == n)
            (src.GetRange item.pfx item.bits)) % U64)
          = (fun n => (List.countP (fun y => get_branch (item.bits / 4) y == n)
            (src.GetRange item.pfx item.bits)) % U64) from
          funext (fun n => by rw [Nat.zero_add])]
        rfl
      · rw [if_neg hcnt, if_neg hcnt]
  exact ⟨fun h => by rw [hcommon, if_pos h], fun h => by rw [hcommon, if_neg h]⟩

/-- Concrete data for the `normProcess_split` witness: an overfull
single-leaf trunk holding 2001 copies of one 4-byte element, a store
yielding exactly those copies, and the queue item `Update` would have
pushed for the root. -/
def wElem : Element := [0x11, 0x22, 0x33, 0x44]

/-- Witness store: every range query yields the 2001 copies. -/
def wSrc : CUtxoDataSet := ⟨2001, fun _ _ => List.replicate 2001 wElem⟩

/-- Witness trunk: one leaf with count 2001. -/
def wTrunk : CTrunkNode := ⟨[⟨2001, 0, false⟩], [], [msEmpty], []⟩

/-- Witness queue item for the root at depth 1. -/
def wItem : CNormalizeItem := ⟨0, 4, wElem⟩

/-- The witness trunk's root record. -/
def wNd : CNode := ⟨2001, 0, false⟩

/-- Witness for `normProcess_split` at the concrete overfull leaf. -/
theorem normProcess_split_witness :
    normProcess wSrc wTrunk wItem []
      = .ok (splitShape wTrunk 0 wNd
          (fun n => ((wSrc.GetRange wItem.pfx wItem.bits).countP
              (fun y => get_branch (wItem.bits / 4) y == n)) % U64)
          (fun n => msAdds ((wSrc.GetRange wItem.pfx wItem.bits).filter
              (fun y => get_branch (wItem.bits / 4) y == n)))
          ([] ++ (List.range BRANCH_COUNT).map (fun n =>
            (⟨wTrunk.nodes.length + n, wItem.bits + 4,
              setNibble (wItem.bits / 4) wItem.pfx n⟩ : CNormalizeItem)))) :=
  (normProcess_split wSrc wTrunk wItem [] wNd rfl rfl (by decide) (by decide)
    (by decide) (by decide)
    (fun y hy => by rw [List.eq_of_mem_replicate hy]; decide)).1
    (by
      rw [show (wSrc.GetRange wItem.pfx wItem.bits).length = 2001 from by
        show (List.replicate 2001 wElem).length = 2001
        rw [List.length_replicate]]
      decide)

/-! ### Out-of-bounds element reads in deep splits (claim C10) -/

/-- A minimum-length element: exactly `MIN_ELEMENT_SIZE` bytes, every
nibble `1`. -/
def dupElem : Element := [0x11, 0x11, 0x11, 0x11]

/-- The signed multiset holding `n` copies of `dupElem`. -/
def msN (n : Nat) : MState := fun x => if x = dupElem then (n : Int) else 0

/-- The trunk after `n` `Update`-adds of `dupElem` on a fresh trunk: a
single leaf with count `n`, `n` copies in its multiset, and the root
enqueued once the count exceeds `MAX_LEAF_SIZE`. -/
def dupState (n : Nat) : CTrunkNode :=
  { nodes := [⟨n, 0, false⟩], branches := [], multisets := [msN n],
    denormalized := if 2000 < n then [⟨0, 4, dupElem⟩] else [] }

/-- Adding `dupElem` `k` times to `dupState n` reaches `dupState (n + k)`
(for totals up to 2001, where exactly one queue push happens). -/
theorem dupState_fold :
    ∀ (k n : Nat), n + k ≤ 2001 →
      (List.replicate k dupElem).foldlM (fun tr e => tr.Update e false) (dupState n)
        = .ok (dupState (n + k)) := by
  intro k
  induction k with
  | zero =>
    intro n _
    rw [List.replicate_zero, List.foldlM_nil, Nat.add_zero]
    rfl
  | succ k ih =>
    intro n h
    rw [List.replicate_succ, List.foldlM_cons]
    have hnU : n + 1 < U64 := by unfold U64; omega
    have hstep : (dupState n).Update dupElem false = .ok (dupState (n + 1)) := by
      rw [show (dupState n).Update dupElem false
          = (flatTrunk n (msN n) (if 2000 < n then [⟨0, 4, dupElem⟩] else [])).Update
            dupElem false from rfl]
      rw [trunkUpdate_flat n (msN n) _ dupElem false (by decide)]
      have hbump : bumpCount n false = n + 1 := by
        rw [bumpCount, if_neg (Bool.false_ne_true)]
        exact Nat.mod_eq_of_lt hnU
      apply congrArg (fun s => (Except.ok s : Except EngineErr CTrunkNode))
      dsimp only [trunkStep]
      rw [hbump]
      rw [show msUpdate (msN n) dupElem false = msN (n + 1) from funext (fun x => by
        rw [msUpdate, msN, msN]
        by_cases hx : x = dupElem
        · rw [if_pos hx, if_pos hx, if_pos hx, if_neg (Bool.false_ne_true)]
          push_cast
          ring
        · rw [if_neg hx, if_neg hx, if_neg hx])]
      show flatTrunk (n + 1) (msN (n + 1))
          ((if 2000 < n then [⟨0, 4, dupElem⟩] else [])
            ++ (if MAX_LEAF_SIZE < n + 1 then [⟨0, 1 * BRANCH_BITS, dupElem⟩] else []))
        = dupState (n + 1)
      by_cases h1 : 2000 < n + 1
      · have hn : n = 2000 := by
          have : MAX_LEAF_SIZE = 2000 := rfl
          omega
        subst hn
        rfl
      · rw [if_neg (by omega : ¬ 2000 < n), if_neg (show ¬ MAX_LEAF_SIZE < n + 1 from h1),
          List.append_nil]
        show flatTrunk (n + 1) (msN (n + 1)) [] = dupState (n + 1)
        rw [dupState, if_neg h1]
        rfl
    rw [hstep]
    show (List.replicate k dupElem).foldlM (fun tr e => tr.Update e false)
        (dupState (n + 1)) = _
    rw [ih (n + 1) (by omega), show n + 1 + k = n + (k + 1) from by omega]

/-- Claim C10 (code divergence at the failing input): 2001 `Update`-adds
of the 4-byte element `dupElem` on a fresh trunk produce an overfull
single leaf with the root enqueued; the element's byte read of a depth-8
split (`element[8/2]`) is out of bounds, and the redistribution loop of
any split at depth 8 over the 2001 copies the store yields performs that
out-of-bounds read on its first element.  (The `Normalize` cascade reaches
depth 8 because every split sends all 2001 identical copies into the same
child, which therefore never gets below `MAX_LEAF_SIZE`.) -/
theorem update_normalize_reads_out_of_bounds :
    ((List.replicate 2001 dupElem).foldlM (fun tr e => tr.Update e false) trunkInit
      = .ok (dupState 2001))
    ∧ (dupState 2001).denormalized = [⟨0, 4, dupElem⟩]
    ∧ ¬ branchInBounds 8 dupElem
    ∧ (∀ (t : CTrunkNode) (base added : Nat),
        redistribute 8 base (List.replicate 2001 dupElem) t added
          = .error .elemOob) := by
  refine ⟨?_, by decide, by decide, ?_⟩
  · have h := dupState_fold 2001 0 (by omega)
    rw [show dupState 0 = trunkInit from by
      rw [dupState, trunkInit, if_neg (by omega : ¬ 2000 < 0)]
      show CTrunkNode.mk [⟨0, 0, false⟩] [] [msN 0] [] = _
      rw [show msN 0 = msEmpty from funext (fun x => by
        rw [msN, msEmpty]
        by_cases hx : x = dupElem
        · rw [if_pos hx]; rfl
        · rw [if_neg hx])]
      rfl] at h
    rw [h]
  · intro t base added
    rw [show (2001 : Nat) = 2000 + 1 from rfl, List.replicate_succ, redistribute,
      if_neg (by decide : ¬ branchInBounds 8 dupElem)]

end UtxoCommit
